import Mathlib

/-!
# Gengar firmware (`src/gengar.c`): LFSR generator and blink/fade controller

A shallow embedding of the firmware's two pieces of logic:

* the 4-byte LFSR (`LFSR_Init`, `LFSR_Generate`);
* the body of the inner fade loop of `main` and the loop around it.

Every `uint8_t` object is a natural number kept below `256`; each assignment
to such an object reduces the value computed in (wider) `int` arithmetic
modulo `256`.  An array access outside `state[0..3]` is undefined behaviour
in C and is modelled by `none`.
-/

namespace Gengar

/-! ## Constants (`#define`s of the source) -/

/-- Byte 1 of the random number seed. -/
def SEED1 : Nat := 0x21
/-- Byte 2 of the random number seed. -/
def SEED2 : Nat := 0x2C
/-- Byte 3 of the random number seed. -/
def SEED3 : Nat := 0x7F
/-- Byte 4 of the random number seed. -/
def SEED4 : Nat := 0x7F
/-- Blink when the random byte is greater than this. -/
def THRESHOLD : Nat := 250

/-- Truncation of an `int` value to `uint8_t`. -/
def u8 (x : Nat) : Nat := x % 256

/-! ## The generator -/

/-- The generator structure: `uint8_t state[4]; uint8_t index;`. -/
structure lfsr_generator_t where
  state : Fin 4 → Nat
  index : Nat

/-- Read of `a[i]`; `none` when `i` is outside the four-element array. -/
def rd (a : Fin 4 → Nat) (i : Nat) : Option Nat :=
  if h : i < 4 then some (a ⟨i, h⟩) else none

/-- Write `a[i] = v`; `none` when `i` is outside the four-element array. -/
def wr (a : Fin 4 → Nat) (i : Nat) (v : Nat) : Option (Fin 4 → Nat) :=
  if h : i < 4 then some (Function.update a ⟨i, h⟩ v) else none

/-- Every field of the structure holds an 8-bit value. -/
def lfsr_generator_t.isU8 (g : lfsr_generator_t) : Prop :=
  (∀ i : Fin 4, g.state i < 256) ∧ g.index < 256

/-- All four state bytes are zero. -/
def lfsr_generator_t.allZero (g : lfsr_generator_t) : Prop :=
  ∀ i : Fin 4, g.state i = 0

/-- The four stores to `state[0..3]` and the store to `index` of `LFSR_Init`,
in the order of the source. -/
def LFSR_Init (pGenerator : lfsr_generator_t) : lfsr_generator_t :=
  let g1 := { pGenerator with state := Function.update pGenerator.state 0 SEED1 }
  let g2 := { g1 with state := Function.update g1.state 1 SEED2 }
  let g3 := { g2 with state := Function.update g2.state 2 SEED3 }
  let g4 := { g3 with state := Function.update g3.state 3 SEED4 }
  { g4 with index := 0 }

/-- One call of `LFSR_Generate`: the returned byte and the generator after the
call.  The sums are taken in `int` arithmetic (unbounded here; they stay below
`2^15`) and reduced modulo `256` by the assignment to a `uint8_t`. -/
def LFSR_Generate (pGenerator : lfsr_generator_t) : Option (Nat × lfsr_generator_t) := do
  let newIndex := u8 ((pGenerator.index + 1) &&& 0x03)
  let cur ← rd pGenerator.state pGenerator.index
  let nxt ← rd pGenerator.state newIndex
  let shiftA := cur
  let shiftB := u8 ((cur <<< 2) + (nxt >>> 6))
  let shiftC := u8 ((cur <<< 6) + (nxt >>> 2))
  let shiftD := u8 ((cur <<< 7) + (nxt >>> 1))
  let state' ← wr pGenerator.state pGenerator.index
    (u8 (shiftA ^^^ shiftB ^^^ shiftC ^^^ shiftD))
  some (shiftA, { state := state', index := newIndex })

/-- The generator after `n` successive calls of `LFSR_Generate`. -/
def generateN : Nat → lfsr_generator_t → Option lfsr_generator_t
  | 0, g => some g
  | n + 1, g => (LFSR_Generate g).bind fun r => generateN n r.2

/-- The byte that `LFSR_Generate` stores, as a function of the byte at `index`
and the byte that follows it (the right-hand side of the store at line 169). -/
def mixByte (cur nxt : Nat) : Nat :=
  u8 (cur ^^^ u8 ((cur <<< 2) + (nxt >>> 6)) ^^^ u8 ((cur <<< 6) + (nxt >>> 2))
    ^^^ u8 ((cur <<< 7) + (nxt >>> 1)))

/-- The invariant of the generator: the index is inside the array, the bytes
are 8-bit values, and they are not all zero. -/
def genInv (g : lfsr_generator_t) : Prop :=
  g.index < 4 ∧ (∀ i : Fin 4, g.state i < 256) ∧ ¬ g.allZero

/-! ### The generator step as the specification words it -/

/-- Specification, step 2: `B = (cur << 2) | (nxt >> 6)` with an 8-bit, non-widening
left shift. -/
def specB (cur nxt : Nat) : Nat := u8 (cur <<< 2) ||| (nxt >>> 6)
/-- Specification, step 2: `C = (cur << 6) | (nxt >> 2)`. -/
def specC (cur nxt : Nat) : Nat := u8 (cur <<< 6) ||| (nxt >>> 2)
/-- Specification, step 2: `D = (cur << 7) | (nxt >> 1)`. -/
def specD (cur nxt : Nat) : Nat := u8 (cur <<< 7) ||| (nxt >>> 1)
/-- Specification, step 3: the byte `A xor B xor C xor D` with `A = cur`. -/
def specNewByte (cur nxt : Nat) : Nat :=
  cur ^^^ specB cur nxt ^^^ specC cur nxt ^^^ specD cur nxt

/-! ## The fade loop of `main` -/

/-- The variables of the inner loop: the locals `counter` and `goingUp`, the
local `dim_level` of `main`, and the port register `GPIO`. -/
structure FadeState where
  counter : Nat
  dim_level : Nat
  goingUp : Nat
  GPIO : Nat

/-- Both eye pins (bits 2 and 4 of the port register `GPIO`) are set. -/
def eyesHigh (port : Nat) : Prop := port &&& 0x14 = 0x14

/-- Both eye pins are clear. -/
def eyesLow (port : Nat) : Prop := port &&& 0x14 = 0

instance (port : Nat) : Decidable (eyesHigh port) :=
  inferInstanceAs (Decidable (port &&& 0x14 = 0x14))
instance (port : Nat) : Decidable (eyesLow port) :=
  inferInstanceAs (Decidable (port &&& 0x14 = 0))

/-- Which store to `GPIO` lines 88 to 91 select: `some false` for
`GPIO &= ~0x14`, `some true` for `GPIO |= 0x14`, `none` for no store. -/
def eyesWrite (counter dim_level : Nat) : Option Bool :=
  if counter = dim_level then some false
  else if counter = 0 then some true
  else none

/-- Effect of the selected store on the 8-bit register.  `~0x14` is the `int`
with every bit set but bits 2 and 4, so on an 8-bit value the mask is `0xEB`. -/
def applyWrite : Option Bool → Nat → Nat
  | some false, port => u8 (port &&& (0xFF - 0x14))
  | some true, port => u8 (port ||| 0x14)
  | none, port => port

/-- The statement `dim_level--` on a `uint8_t` (wraps from `0` to `255`). -/
def dec8 (x : Nat) : Nat := u8 (x + 255)

/-- The statements `counter++` and `dim_level++` on a `uint8_t` (wraps from `255` to `0`). -/
def inc8 (x : Nat) : Nat := u8 (x + 1)

/-- The first statement of the loop body (lines 88 to 91): the store to the
eye pins selected by `counter` and `dim_level`. -/
def fadeWrite (s : FadeState) : FadeState :=
  { s with GPIO := applyWrite (eyesWrite s.counter s.dim_level) s.GPIO }

/-- The middle of the loop body (lines 92 to 113): `counter++` and the update
made when `counter == 10`. -/
def fadeUpdate (s : FadeState) : FadeState :=
  let counter := inc8 s.counter
  if counter = 10 then
    if s.goingUp ≠ 0 then
      { s with counter := 0, dim_level := inc8 s.dim_level }
    else
      let dim_level := dec8 s.dim_level
      if dim_level = 0 then
        { s with counter := 11, dim_level := dim_level, goingUp := 1 }
      else
        { s with counter := 0, dim_level := dim_level }
  else
    { s with counter := counter }

/-- The exit test of the loop body (lines 116 to 120).  The flag is `true`
when the iteration leaves the loop through `break`, after `GPIO |= 0x14`. -/
def fadeExit (s : FadeState) : FadeState × Bool :=
  if s.goingUp = 1 ∧ s.dim_level = 10 then
    ({ s with GPIO := applyWrite (some true) s.GPIO }, true)
  else
    (s, false)

/-- One iteration of the inner `while(1)` (lines 85 to 123).  When the flag is
`false` the iteration ends with `Timer_Wait(2)`, which touches timer registers
only. -/
def fadeBody (s : FadeState) : FadeState × Bool :=
  fadeExit (fadeUpdate (fadeWrite s))

/-- The inner `while(1)` run for at most `fuel` iterations: the number of
iterations executed and the variables at the `break`, or `none` when the loop
has not left within `fuel` iterations. -/
def fadeLoop : Nat → FadeState → Option (Nat × FadeState)
  | 0, _ => none
  | fuel + 1, s =>
    match fadeBody s with
    | (s', true) => some (1, s')
    | (s', false) => (fadeLoop fuel s').map fun r => (r.1 + 1, r.2)

/-- The variables at the top of each of the first `fuel` iterations of the
inner loop, followed by the variables at the `break` if it is reached, else by
the variables at the top of the next iteration. -/
def fadeTrace : Nat → FadeState → List FadeState
  | 0, s => [s]
  | fuel + 1, s =>
    match fadeBody s with
    | (s', true) => [s, s']
    | (s', false) => s :: fadeTrace fuel s'

/-- The variables after `k` iterations of the loop body, none of which is
required to stay in the loop (the body is applied `k` times). -/
def fadeSteps : Nat → FadeState → FadeState
  | 0, s => s
  | k + 1, s => fadeSteps k (fadeBody s).1

/-- Removal of consecutive repeats from a list. -/
def collapse : List Nat → List Nat
  | [] => []
  | [a] => [a]
  | a :: b :: l => if a = b then collapse (b :: l) else a :: collapse (b :: l)

/-- Each element of the list equals the next one or differs from it by exactly `1`. -/
def stepsByOne : List Nat → Bool
  | a :: b :: l => (a == b || a + 1 == b || b + 1 == a) && stepsByOne (b :: l)
  | _ => true

/-- The loop variables without the port register. -/
def FadeState.ctrl (s : FadeState) : Nat × Nat × Nat :=
  (s.counter, s.dim_level, s.goingUp)

/-- The states at the top of an iteration from which the loop is analysed:
descending inside a cycle; in the extended off phase, `counter` past `10`;
ascending inside a cycle below level `10`. -/
def fadeInv (s : FadeState) : Prop :=
  (s.goingUp = 0 ∧ s.counter ≤ 9 ∧ s.dim_level < 256) ∨
  (s.goingUp = 1 ∧ s.dim_level = 0 ∧ 11 ≤ s.counter ∧ s.counter ≤ 255) ∨
  (s.goingUp = 1 ∧ s.counter ≤ 9 ∧ s.dim_level ≤ 9)

/-- The number of iterations that remain before the `break`, on the states of
`fadeInv`. -/
def fadeMeasure (s : FadeState) : Nat :=
  if s.goingUp = 0 then
    10 * (if s.dim_level = 0 then 256 else s.dim_level) - s.counter + 345
  else if 11 ≤ s.counter then 356 - s.counter
  else 100 - 10 * s.dim_level - s.counter

/-- The variables of `main` between two iterations of the outer loop. -/
structure MainState where
  random : lfsr_generator_t
  dim_level : Nat
  GPIO : Nat

/-- The start of `main` up to the outer loop: `dim_level = 10`, `LFSR_Init`,
and `GPIO |= 0x14` (lines 60 to 71). -/
def mainInit (random : lfsr_generator_t) (port : Nat) : MainState :=
  { random := LFSR_Init random, dim_level := 10, GPIO := applyWrite (some true) port }

/-- One iteration of the outer `while(1)` (lines 76 to 128), the inner loop
being given `fuel` iterations.  The first component is `some n` when the fade
sequence was entered and ran `n` sub-steps, `none` when it was not entered. -/
def outerBody (fuel : Nat) (m : MainState) : Option (Option Nat × MainState) := do
  let (b, random) ← LFSR_Generate m.random
  if b > THRESHOLD then
    let (n, s) ← fadeLoop fuel
      { counter := 0, dim_level := m.dim_level, goingUp := 0, GPIO := m.GPIO }
    some (some n, { random := random, dim_level := s.dim_level, GPIO := s.GPIO })
  else
    some (none, { random := random, dim_level := m.dim_level, GPIO := m.GPIO })

/-! ## The loop body statement by statement -/

/-- The part of `mixByte` that depends on the byte at `index`. -/
def mixCur (cur : Nat) : Nat :=
  cur ^^^ u8 (cur <<< 2) ^^^ u8 (cur <<< 6) ^^^ u8 (cur <<< 7)

/-- The part of `mixByte` that depends on the byte after `index`. -/
def mixNxt (nxt : Nat) : Nat :=
  (nxt >>> 6) ^^^ (nxt >>> 2) ^^^ (nxt >>> 1)

/-- A left inverse of `mixCur` on 8-bit values. -/
def unmixCur (y : Nat) : Nat :=
  u8 (y ^^^ (y <<< 2) ^^^ (y <<< 4) ^^^ (y <<< 7))

/-- The bytes returned by `n` successive calls of `LFSR_Generate`. -/
def outputs : Nat → lfsr_generator_t → List Nat
  | 0, _ => []
  | n + 1, g =>
    match LFSR_Generate g with
    | some (r, g') => r :: outputs n g'
    | none => []

/-- The loop variables with the port register reduced to its two eye bits. -/
def FadeState.obs (s : FadeState) : Nat × Nat × Nat × Nat :=
  (s.counter, s.dim_level, s.goingUp, s.GPIO &&& 0x14)

/-- Boolean check that a relation holds between every two consecutive elements. -/
def chainB {α : Type} (R : α → α → Bool) : List α → Bool
  | a :: b :: l => R a b && chainB R (b :: l)
  | _ => true

/-- The first `n` iterations of the outer `while(1)`: for each iteration whether
the fade sequence ran (and for how many sub-steps), and the variables after the
last one. -/
def outerRun (fuel : Nat) : Nat → MainState → Option (List (Option Nat) × MainState)
  | 0, m => some ([], m)
  | n + 1, m =>
    (outerBody fuel m).bind fun r1 =>
      (outerRun fuel n r1.2).map fun r2 => (r1.1 :: r2.1, r2.2)

/-- What holds at the start of each iteration of the outer loop. -/
def mainInv (m : MainState) : Prop :=
  m.dim_level = 10 ∧ eyesHigh m.GPIO ∧ m.random.index < 4

/-! ## The timer -/

/-- The registers of Timer 1 that `Timer_Wait` uses. -/
structure TimerRegs where
  TMR1H : Nat
  TMR1L : Nat
  T1CON : Nat
  PIR1 : Nat

/-- The statements of `Timer_Wait` before the busy-wait (lines 197 to 201):
the two preload stores and `T1CON |= 0x01`.  `pMilliseconds` is a `uint8_t`, so
neither subtraction goes below zero. -/
def Timer_Wait_preload (pMilliseconds : Nat) (r : TimerRegs) : TimerRegs :=
  { r with
    TMR1H := u8 (0xFF - pMilliseconds / 2)
    TMR1L := u8 (0xFF - ((pMilliseconds % 2) <<< 7))
    T1CON := u8 (r.T1CON ||| 0x01) }

/-- The 16-bit value of the timer, `256 * TMR1H + TMR1L`. -/
def TimerRegs.value (r : TimerRegs) : Nat := 256 * r.TMR1H + r.TMR1L

/-- The number of ticks after which a timer that holds `V` rolls over from
`0xFFFF` to `0`. -/
def ticksToRollover (V : Nat) : Nat := 65536 - V

/-! ## Lemmas on the generator -/

theorem succ_mod_four_lt (i : Nat) : (i + 1) % 4 < 4 :=
  Nat.mod_lt _ (by decide)

theorem newIndex_eq (i : Nat) : u8 ((i + 1) &&& 0x03) = (i + 1) % 4 := by
  have h : (i + 1) &&& 0x03 = (i + 1) % 4 := Nat.and_pow_two_sub_one_eq_mod (i + 1) 2
  have h4 : (i + 1) % 4 < 4 := succ_mod_four_lt i
  unfold u8
  rw [h]
  omega

/-- Closed form of one call on a generator whose index is inside the array. -/
theorem LFSR_Generate_of_lt (g : lfsr_generator_t) (h : g.index < 4) :
    LFSR_Generate g =
      some (g.state ⟨g.index, h⟩,
        { state := Function.update g.state ⟨g.index, h⟩
            (mixByte (g.state ⟨g.index, h⟩) (g.state ⟨(g.index + 1) % 4, succ_mod_four_lt _⟩)),
          index := (g.index + 1) % 4 }) := by
  have h4 := succ_mod_four_lt g.index
  simp only [LFSR_Generate, newIndex_eq, rd, wr, h, h4, dif_pos, mixByte]
  rfl

theorem u8_lt (x : Nat) : u8 x < 256 := Nat.mod_lt _ (by decide)

theorem mixByte_lt (cur nxt : Nat) : mixByte cur nxt < 256 := u8_lt _

theorem succ_mod_four_ne (i : Nat) (_h : i < 4) : (i + 1) % 4 ≠ i := by omega

theorem or_mod_pow (a b n : Nat) : (a ||| b) % 2 ^ n = a % 2 ^ n ||| b % 2 ^ n := by
  apply Nat.eq_of_testBit_eq
  intro i
  simp only [Nat.testBit_mod_two_pow, Nat.testBit_or]
  cases decide (i < n) <;> simp

/-- With a zero successor byte, only the zero byte is mixed to zero. -/
theorem mixByte_zero_right : ∀ cur < 256, mixByte cur 0 = 0 → cur = 0 := by decide!

/-- The sum the source forms in `int` arithmetic equals the bitwise OR of its
two summands when the right summand fits in the bits vacated by the shift. -/
theorem shift_add_eq_or (cur nxt k : Nat) (hk : k ≤ 8) (hn : nxt < 256) :
    u8 ((cur <<< k) + (nxt >>> (8 - k))) = u8 (cur <<< k) ||| (nxt >>> (8 - k)) := by
  have hlt : nxt >>> (8 - k) < 2 ^ k := by
    rw [Nat.shiftRight_eq_div_pow, Nat.div_lt_iff_lt_mul (Nat.two_pow_pos _)]
    calc nxt < 2 ^ 8 := hn
      _ = 2 ^ (k + (8 - k)) := by congr 1; omega
      _ = 2 ^ k * 2 ^ (8 - k) := Nat.pow_add _ _ _
  have hsmall : nxt >>> (8 - k) < 2 ^ 8 :=
    lt_of_lt_of_le hlt (Nat.pow_le_pow_right (by decide) hk)
  have hor : (cur <<< k) + (nxt >>> (8 - k)) = (cur <<< k) ||| (nxt >>> (8 - k)) := by
    rw [Nat.shiftLeft_eq, Nat.mul_comm]
    exact Nat.mul_add_lt_is_or hlt cur
  unfold u8
  rw [hor, show (256 : Nat) = 2 ^ 8 from rfl, or_mod_pow, Nat.mod_eq_of_lt hsmall]

theorem mixByte_eq_spec (cur nxt : Nat) (hc : cur < 256) (hn : nxt < 256) :
    mixByte cur nxt = specNewByte cur nxt := by
  have hB := shift_add_eq_or cur nxt 2 (by decide) hn
  have hC := shift_add_eq_or cur nxt 6 (by decide) hn
  have hD := shift_add_eq_or cur nxt 7 (by decide) hn
  have hlt : specNewByte cur nxt < 2 ^ 8 := by
    have hs : ∀ k, k ≤ 8 → u8 (cur <<< k) ||| (nxt >>> (8 - k)) < 2 ^ 8 := fun k _ =>
      Nat.or_lt_two_pow (u8_lt _)
        (lt_of_le_of_lt (by rw [Nat.shiftRight_eq_div_pow]; exact Nat.div_le_self _ _) hn)
    exact Nat.xor_lt_two_pow (Nat.xor_lt_two_pow (Nat.xor_lt_two_pow hc (hs 2 (by decide)))
      (hs 6 (by decide))) (hs 7 (by decide))
  unfold mixByte
  rw [hB, hC, hD]
  exact Nat.mod_eq_of_lt hlt

theorem genInv_init (g0 : lfsr_generator_t) : genInv (LFSR_Init g0) := by
  refine ⟨by simp [LFSR_Init], ?_, ?_⟩
  · intro i
    fin_cases i <;> simp [LFSR_Init, Function.update, SEED1, SEED2, SEED3, SEED4]
  · intro hz
    have h0 := hz 0
    simp [LFSR_Init, Function.update, SEED1] at h0

/-- One call keeps the invariant, and it returns a result. -/
theorem genInv_step (g : lfsr_generator_t) (hg : genInv g) :
    ∃ r g', LFSR_Generate g = some (r, g') ∧ genInv g' ∧ g'.index = (g.index + 1) % 4 := by
  obtain ⟨hi, hb, hnz⟩ := hg
  refine ⟨_, _, LFSR_Generate_of_lt g hi, ⟨succ_mod_four_lt _, ?_, ?_⟩, rfl⟩
  · intro i
    by_cases hEq : i = ⟨g.index, hi⟩
    · subst hEq
      simp only [Function.update_same]
      exact mixByte_lt _ _
    · simp only [Function.update_noteq hEq]
      exact hb i
  · intro hz
    apply hnz
    have hne : (⟨(g.index + 1) % 4, succ_mod_four_lt _⟩ : Fin 4) ≠ ⟨g.index, hi⟩ := by
      intro h
      exact succ_mod_four_ne g.index hi (congrArg Fin.val h)
    have hnxt : g.state ⟨(g.index + 1) % 4, succ_mod_four_lt _⟩ = 0 := by
      have := hz ⟨(g.index + 1) % 4, succ_mod_four_lt _⟩
      simpa only [Function.update_noteq hne] using this
    have hcur : g.state ⟨g.index, hi⟩ = 0 := by
      have := hz ⟨g.index, hi⟩
      simp only [Function.update_same, hnxt] at this
      exact mixByte_zero_right _ (hb _) this
    intro i
    by_cases hEq : i = ⟨g.index, hi⟩
    · rw [hEq]; exact hcur
    · have := hz i
      simpa only [Function.update_noteq hEq] using this

/-- After any number of calls from a state satisfying the invariant, the
generator exists, satisfies the invariant, and its index has advanced by the
number of calls modulo four. -/
theorem genInv_generateN (n : Nat) (g : lfsr_generator_t) (hg : genInv g) :
    ∃ g', generateN n g = some g' ∧ genInv g' ∧ g'.index = (g.index + n) % 4 := by
  induction n generalizing g with
  | zero => exact ⟨g, rfl, hg, (Nat.mod_eq_of_lt hg.1).symm⟩
  | succ k ih =>
    obtain ⟨r, g1, h1, hinv1, hidx1⟩ := genInv_step g hg
    obtain ⟨g2, h2, hinv2, hidx2⟩ := ih g1 hinv1
    refine ⟨g2, ?_, hinv2, ?_⟩
    · simp only [generateN, h1, Option.some_bind]
      exact h2
    · rw [hidx2, hidx1]
      omega

/-! ## The claims on the generator -/

/-- C1. Non-degeneracy: for every number `n` of calls, and whatever the
structure held before `LFSR_Init`, the generator obtained by `LFSR_Init`
followed by `n` calls of `LFSR_Generate` exists and its four state bytes are
not all zero: some `state[i]` is non-zero. -/
theorem C1_state_never_all_zero (n : Nat) (g0 : lfsr_generator_t) :
    ∃ g, generateN n (LFSR_Init g0) = some g ∧ ¬ g.allZero ∧ ∃ i : Fin 4, g.state i ≠ 0 := by
  obtain ⟨g, hrun, hinv, _⟩ := genInv_generateN n (LFSR_Init g0) (genInv_init g0)
  refine ⟨g, hrun, hinv.2.2, ?_⟩
  by_contra hno
  exact hinv.2.2 fun i => by_contra fun hi => hno ⟨i, hi⟩

/-- C2. For every generator with 8-bit bytes and index in `{0,1,2,3}`, with
`cur = state[index]` and `nxt = state[(index+1) mod 4]`, the call returns and
the byte it leaves in `state[index]` is the specification's `A xor B xor C xor D`;
each sum the code forms in `int` arithmetic stays below `2^15` and, truncated
to 8 bits, equals the specification's 8-bit shift-and-OR value. -/
theorem C2_generate_refines_spec (g : lfsr_generator_t) (hu : g.isU8) (hi : g.index < 4) :
    let cur := g.state ⟨g.index, hi⟩
    let nxt := g.state ⟨(g.index + 1) % 4, succ_mod_four_lt _⟩
    (∃ r g', LFSR_Generate g = some (r, g') ∧
        g'.state ⟨g.index, hi⟩ = specNewByte cur nxt) ∧
      u8 ((cur <<< 2) + (nxt >>> 6)) = specB cur nxt ∧
      u8 ((cur <<< 6) + (nxt >>> 2)) = specC cur nxt ∧
      u8 ((cur <<< 7) + (nxt >>> 1)) = specD cur nxt ∧
      (cur <<< 7) + (nxt >>> 1) < 2 ^ 15 := by
  intro cur nxt
  have hc : cur < 256 := hu.1 _
  have hn : nxt < 256 := hu.1 _
  refine ⟨⟨_, _, LFSR_Generate_of_lt g hi, ?_⟩, shift_add_eq_or cur nxt 2 (by decide) hn,
    shift_add_eq_or cur nxt 6 (by decide) hn, shift_add_eq_or cur nxt 7 (by decide) hn, ?_⟩
  · simp only [Function.update_same]
    exact mixByte_eq_spec cur nxt hc hn
  · rw [Nat.shiftLeft_eq, Nat.shiftRight_eq_div_pow]
    omega

/-- Witness of C2 at the seeded generator: the first call leaves `0x78` in `state[0]`. -/
theorem C2_generate_refines_spec_witness :
    (∃ r g', LFSR_Generate (LFSR_Init ⟨fun _ => 0, 0⟩) = some (r, g') ∧
        g'.state 0 = specNewByte 0x21 0x2C) ∧ specNewByte 0x21 0x2C = 0x78 :=
  by
  have h := C2_generate_refines_spec (LFSR_Init ⟨fun _ => 0, 0⟩) ⟨by decide, by decide⟩
    (by decide)
  exact ⟨h.1, by decide⟩

/-- C3. For every generator with index in `{0,1,2,3}`, `LFSR_Generate` returns
the byte `state[index]` held before the call (the byte it overwrites, not the
new one); the first call after `LFSR_Init` returns `0x21`. -/
theorem C3_generate_returns_old_byte (g : lfsr_generator_t) (hi : g.index < 4)
    (g0 : lfsr_generator_t) :
    (∃ g', LFSR_Generate g = some (g.state ⟨g.index, hi⟩, g')) ∧
      ∃ g', LFSR_Generate (LFSR_Init g0) = some (0x21, g') := by
  refine ⟨⟨_, LFSR_Generate_of_lt g hi⟩, ?_⟩
  have h0 : (LFSR_Init g0).index < 4 := (genInv_init g0).1
  exact ⟨_, LFSR_Generate_of_lt (LFSR_Init g0) h0⟩

/-- Witness of C3: with bytes `5, 6, 7, 8` and index `2` the call returns `7`,
the old `state[2]`, and not the byte `0x5D` it stores there. -/
theorem C3_generate_returns_old_byte_witness :
    (∃ g', LFSR_Generate ⟨![5, 6, 7, 8], 2⟩ = some (7, g')) ∧ mixByte 7 8 = 0x5D :=
  by
  have h := C3_generate_returns_old_byte ⟨![5, 6, 7, 8], 2⟩ (by decide) ⟨![5, 6, 7, 8], 2⟩
  exact ⟨h.1, by decide⟩

/-- C4. Whatever the structure held before, `LFSR_Init` leaves
`state = {0x21, 0x2C, 0x7F, 0x7F}` and `index = 0`. -/
theorem C4_init_sets_seed (g : lfsr_generator_t) :
    (LFSR_Init g).state 0 = 0x21 ∧ (LFSR_Init g).state 1 = 0x2C ∧
      (LFSR_Init g).state 2 = 0x7F ∧ (LFSR_Init g).state 3 = 0x7F ∧
      (LFSR_Init g).index = 0 := by
  simp [LFSR_Init, Function.update, SEED1, SEED2, SEED3, SEED4]

/-- C5. On a generator with index in `{0,1,2,3}` a call sets the index to
`(index + 1) mod 4`; after `LFSR_Init` and any `n` calls the index is `n mod 4`,
hence in `{0,1,2,3}`, the reads of `state[index]` and `state[(index+1) mod 4]`
are inside the array (the index the code computes with `& 0x03` is that one),
and the next call returns. -/
theorem C5_index_in_range (g : lfsr_generator_t) (hi : g.index < 4) (n : Nat)
    (g0 : lfsr_generator_t) :
    (∃ r g', LFSR_Generate g = some (r, g') ∧ g'.index = (g.index + 1) % 4) ∧
      ∃ gn, generateN n (LFSR_Init g0) = some gn ∧ gn.index = n % 4 ∧ gn.index < 4 ∧
        (rd gn.state gn.index).isSome ∧ (rd gn.state ((gn.index + 1) % 4)).isSome ∧
        u8 ((gn.index + 1) &&& 0x03) = (gn.index + 1) % 4 ∧
        (LFSR_Generate gn).isSome := by
  refine ⟨⟨_, _, LFSR_Generate_of_lt g hi, rfl⟩, ?_⟩
  obtain ⟨gn, hrun, hinv, hidx⟩ := genInv_generateN n (LFSR_Init g0) (genInv_init g0)
  have h0 : (LFSR_Init g0).index = 0 := rfl
  rw [h0, Nat.zero_add] at hidx
  refine ⟨gn, hrun, hidx, hinv.1, ?_, ?_, newIndex_eq _, ?_⟩
  · simp [rd, hinv.1]
  · simp [rd, succ_mod_four_lt]
  · rw [LFSR_Generate_of_lt gn hinv.1]; rfl

/-- Witness of C5: from index `3` the call wraps the index to `0`; five calls
after `LFSR_Init` leave index `1`. -/
theorem C5_index_in_range_witness :
    (∃ r g', LFSR_Generate ⟨![5, 6, 7, 8], 3⟩ = some (r, g') ∧ g'.index = 0) ∧
      ∃ gn, generateN 5 (LFSR_Init ⟨![5, 6, 7, 8], 3⟩) = some gn ∧ gn.index = 1 :=
  by
  have h := C5_index_in_range ⟨![5, 6, 7, 8], 3⟩ (by decide) 5 ⟨![5, 6, 7, 8], 3⟩
  obtain ⟨gn, hrun, hidx, _⟩ := h.2
  exact ⟨h.1, gn, hrun, hidx⟩

/-! ## Lemmas on the fade loop -/

theorem or_mask_high (p : Nat) : eyesHigh (u8 (p ||| 0x14)) := by
  have h : ∀ q < 256, (q ||| 0x14) &&& 0x14 = 0x14 := by decide!
  unfold eyesHigh u8
  rw [show (256 : Nat) = 2 ^ 8 from rfl, or_mod_pow]
  exact h _ (Nat.mod_lt _ (by decide))

theorem and_mod_pow (a b n : Nat) : (a &&& b) % 2 ^ n = a % 2 ^ n &&& b % 2 ^ n := by
  apply Nat.eq_of_testBit_eq
  intro i
  simp only [Nat.testBit_mod_two_pow, Nat.testBit_and]
  cases decide (i < n) <;> simp

theorem and_mask_low (p : Nat) : eyesLow (u8 (p &&& (0xFF - 0x14))) := by
  have h : ∀ q < 256, (q &&& 0xEB) &&& 0x14 = 0 := by decide!
  unfold eyesLow u8
  rw [show (256 : Nat) = 2 ^ 8 from rfl, and_mod_pow]
  exact h _ (Nat.mod_lt _ (by decide))

theorem not_high_of_low (p : Nat) (h : eyesLow p) : ¬ eyesHigh p := by
  unfold eyesLow at h
  unfold eyesHigh
  rw [h]
  decide

/-- One iteration from a state of `fadeInv`: either it leaves the loop, and
then it was the last one counted by `fadeMeasure`, or it stays in `fadeInv`
and the measure drops by one. -/
theorem fadeBody_measure (s : FadeState) (h : fadeInv s) :
    ((fadeBody s).2 = true →
        fadeMeasure s = 1 ∧ (fadeBody s).1.dim_level = 10 ∧ (fadeBody s).1.goingUp = 1) ∧
      ((fadeBody s).2 = false →
        fadeInv (fadeBody s).1 ∧ fadeMeasure (fadeBody s).1 + 1 = fadeMeasure s) := by
  obtain ⟨c, d, g, p⟩ := s
  simp only [fadeInv, fadeMeasure, fadeBody, fadeExit, fadeUpdate, fadeWrite, inc8, dec8, u8] at h ⊢
  split_ifs <;> simp_all <;> omega

theorem fadeBody_exit_high (s : FadeState) (h : (fadeBody s).2 = true) :
    eyesHigh ( FadeState.GPIO (fadeBody s).1) := by
  unfold fadeBody fadeExit at h ⊢
  split_ifs at h ⊢
  exact or_mask_high _

/-- From a state of `fadeInv` the loop leaves after exactly `fadeMeasure`
iterations, whatever fuel at least that large it is given, with `dim_level = 10`,
`goingUp = 1` and the eye pins high. -/
theorem fadeLoop_exits (n : Nat) :
    ∀ s : FadeState, fadeInv s → fadeMeasure s = n → ∀ fuel, n ≤ fuel →
      ∃ t, fadeLoop fuel s = some (n, t) ∧ t.dim_level = 10 ∧ t.goingUp = 1 ∧
        eyesHigh t.GPIO := by
  induction n with
  | zero =>
    intro s hinv hm
    have hb := fadeBody_measure s hinv
    cases hflag : (fadeBody s).2 with
    | true => have := (hb.1 hflag).1; omega
    | false => have := (hb.2 hflag).2; omega
  | succ k ih =>
    intro s hinv hm fuel hfuel
    obtain ⟨f, rfl⟩ : ∃ f, fuel = f + 1 := ⟨fuel - 1, by omega⟩
    have hb := fadeBody_measure s hinv
    cases hflag : (fadeBody s).2 with
    | true =>
      obtain ⟨h1, hd, hg⟩ := hb.1 hflag
      have hk : k = 0 := by omega
      subst hk
      refine ⟨(fadeBody s).1, ?_, hd, hg, fadeBody_exit_high s hflag⟩
      have hpair : fadeBody s = ((fadeBody s).1, true) := by rw [← hflag]
      simp only [fadeLoop]
      rw [hpair]
    | false =>
      obtain ⟨hinv1, hm1⟩ := hb.2 hflag
      obtain ⟨t, ht, hd, hg, hhigh⟩ := ih (fadeBody s).1 hinv1 (by omega) f (by omega)
      refine ⟨t, ?_, hd, hg, hhigh⟩
      have hpair : fadeBody s = ((fadeBody s).1, false) := by rw [← hflag]
      simp only [fadeLoop]
      rw [hpair]
      simp only [ht, Option.map_some']

/-- Entered with `counter = 0` and `goingUp = 0` at any 8-bit `dim_level`, the
loop leaves within `2905` iterations. -/
theorem fadeLoop_from_entry (d p fuel : Nat) (hd : d < 256) (hfuel : 2905 ≤ fuel) :
    ∃ n t, fadeLoop fuel ⟨0, d, 0, p⟩ = some (n, t) ∧ n ≤ 2905 ∧ eyesHigh t.GPIO ∧
      t.dim_level = 10 := by
  have hinv : fadeInv ⟨0, d, 0, p⟩ := Or.inl ⟨rfl, Nat.zero_le _, hd⟩
  have hm : fadeMeasure ⟨0, d, 0, p⟩ ≤ 2905 := by
    simp only [fadeMeasure]
    split_ifs <;> omega
  obtain ⟨t, ht, hdim, _, hhigh⟩ :=
    fadeLoop_exits _ ⟨0, d, 0, p⟩ hinv rfl fuel (le_trans hm hfuel)
  exact ⟨_, t, ht, hm, hhigh, hdim⟩

theorem fadeExit_ctrl (s t : FadeState) (h : s.ctrl = t.ctrl) :
    (fadeExit s).1.ctrl = (fadeExit t).1.ctrl ∧ (fadeExit s).2 = (fadeExit t).2 := by
  obtain ⟨c, d, g, p⟩ := s
  obtain ⟨c', d', g', p'⟩ := t
  simp only [FadeState.ctrl, Prod.mk.injEq] at h
  obtain ⟨rfl, rfl, rfl⟩ := h
  simp only [fadeExit]
  split_ifs <;> simp [FadeState.ctrl]

theorem fadeUpdate_ctrl (s t : FadeState) (h : s.ctrl = t.ctrl) :
    (fadeUpdate s).ctrl = (fadeUpdate t).ctrl := by
  obtain ⟨c, d, g, p⟩ := s
  obtain ⟨c', d', g', p'⟩ := t
  simp only [FadeState.ctrl, Prod.mk.injEq] at h
  obtain ⟨rfl, rfl, rfl⟩ := h
  simp only [fadeUpdate]
  split_ifs <;> simp [FadeState.ctrl]

/-- The port register has no influence on `counter`, `dim_level`, `goingUp`
or on the exit of an iteration. -/
theorem fadeBody_ctrl (s t : FadeState) (h : s.ctrl = t.ctrl) :
    (fadeBody s).1.ctrl = (fadeBody t).1.ctrl ∧ (fadeBody s).2 = (fadeBody t).2 := by
  have hw : (fadeWrite s).ctrl = (fadeWrite t).ctrl := by
    simpa only [fadeWrite, FadeState.ctrl] using h
  exact fadeExit_ctrl _ _ (fadeUpdate_ctrl _ _ hw)

theorem fadeSteps_ctrl (k : Nat) :
    ∀ s t : FadeState, s.ctrl = t.ctrl → (fadeSteps k s).ctrl = (fadeSteps k t).ctrl := by
  induction k with
  | zero => intro s t h; exact h
  | succ k ih => intro s t h; exact ih _ _ (fadeBody_ctrl s t h).1

theorem fadeTrace_ctrl (fuel : Nat) :
    ∀ s t : FadeState, s.ctrl = t.ctrl →
      (fadeTrace fuel s).map FadeState.ctrl = (fadeTrace fuel t).map FadeState.ctrl := by
  induction fuel with
  | zero => intro s t h; simp [fadeTrace, h]
  | succ k ih =>
    intro s t h
    obtain ⟨hc, hf⟩ := fadeBody_ctrl s t h
    have hs : fadeBody s = ((fadeBody s).1, (fadeBody s).2) := rfl
    have ht : fadeBody t = ((fadeBody t).1, (fadeBody t).2) := rfl
    simp only [fadeTrace]
    rw [hs, ht, ← hf]
    cases (fadeBody s).2 with
    | true => simp [h, hc]
    | false => simp [h, ih _ _ hc]

/-- When the loop leaves, the trace ends with the exit state and has one entry
per iteration besides the entry state. -/
theorem fadeTrace_of_fadeLoop (fuel : Nat) :
    ∀ (s : FadeState) (n : Nat) (t : FadeState), fadeLoop fuel s = some (n, t) →
      (fadeTrace fuel s).getLast? = some t ∧ (fadeTrace fuel s).length = n + 1 := by
  induction fuel with
  | zero => intro s n t h; simp [fadeLoop] at h
  | succ k ih =>
    intro s n t h
    have hs : fadeBody s = ((fadeBody s).1, (fadeBody s).2) := rfl
    simp only [fadeLoop, fadeTrace] at h ⊢
    rw [hs] at h ⊢
    cases hflag : (fadeBody s).2 with
    | true =>
      rw [hflag] at h
      simp only [Option.some.injEq, Prod.mk.injEq] at h
      obtain ⟨rfl, rfl⟩ := h
      simp
    | false =>
      rw [hflag] at h
      simp only [Option.map_eq_some', Prod.mk.injEq] at h
      obtain ⟨⟨n', t'⟩, hrun, rfl, rfl⟩ := h
      obtain ⟨hlast, hlen⟩ := ih _ _ _ hrun
      have hne : fadeTrace k (fadeBody s).1 ≠ [] := by
        intro hnil
        rw [hnil] at hlen
        simp at hlen
      obtain ⟨a, l, hcons⟩ := List.exists_cons_of_ne_nil hne
      show (s :: fadeTrace k (fadeBody s).1).getLast? = some t' ∧
        (s :: fadeTrace k (fadeBody s).1).length = n' + 1 + 1
      rw [hcons] at hlast hlen ⊢
      refine ⟨?_, by simp at hlen ⊢; omega⟩
      rw [List.getLast?_cons_cons]
      exact hlast

theorem fadeSteps_succ (k : Nat) :
    ∀ s : FadeState, fadeSteps (k + 1) s = (fadeBody (fadeSteps k s)).1 := by
  induction k with
  | zero => intro s; rfl
  | succ k ih => intro s; exact ih (fadeBody s).1

/-- An iteration that starts at `counter ≤ 8`, outside the exit condition,
only performs the store to the eye pins and increments `counter`. -/
theorem fadeBody_in_cycle (k d g q : Nat) (hk : k ≤ 8) (hrun : ¬ (g = 1 ∧ d = 10)) :
    fadeBody ⟨k, d, g, q⟩ = (⟨k + 1, d, g, applyWrite (eyesWrite k d) q⟩, false) := by
  have h1 : (k + 1) % 256 = k + 1 := Nat.mod_eq_of_lt (by omega)
  have h2 : k + 1 ≠ 10 := by omega
  simp only [fadeBody, fadeWrite, fadeUpdate, fadeExit, inc8, u8, h1, h2, if_false, hrun]

/-- The store of the sub-step at `counter = c`, given that the port is high
after the sub-steps below `dim_level` and low after the others. -/
theorem cycle_write (c d q : Nat)
    (hq : 0 < c → (c - 1 < d → eyesHigh q) ∧ (d ≤ c - 1 → eyesLow q)) :
    (c < d → eyesHigh (applyWrite (eyesWrite c d) q)) ∧
      (d ≤ c → eyesLow (applyWrite (eyesWrite c d) q)) := by
  unfold eyesWrite
  split_ifs with h1 h2
  · exact ⟨fun h => absurd h1 (by omega), fun _ => and_mask_low q⟩
  · exact ⟨fun _ => or_mask_high q, fun h => absurd h (by omega)⟩
  · have hpos : 0 < c := Nat.pos_of_ne_zero h2
    exact ⟨fun h => (hq hpos).1 (by omega), fun h => (hq hpos).2 (by omega)⟩

/-- The variables at the top of the sub-step at `counter = c` of a cycle
started with `counter = 0`. -/
theorem cycle_state (d g p : Nat) (hrun : ¬ (g = 1 ∧ d = 10)) (c : Nat) (hc : c ≤ 9) :
    ∃ q, fadeSteps c ⟨0, d, g, p⟩ = ⟨c, d, g, q⟩ ∧
      (0 < c → (c - 1 < d → eyesHigh q) ∧ (d ≤ c - 1 → eyesLow q)) := by
  induction c with
  | zero => exact ⟨p, rfl, fun h => absurd h (by decide)⟩
  | succ k ih =>
    obtain ⟨q, hq, hstat⟩ := ih (by omega)
    refine ⟨applyWrite (eyesWrite k d) q, ?_, fun _ => ?_⟩
    · rw [fadeSteps_succ, hq, fadeBody_in_cycle k d g q (by omega) hrun]
    · simpa only [Nat.add_sub_cancel] using cycle_write k d q hstat

theorem countP_lt_range (d : Nat) (hd : d ≤ 10) :
    (List.range 10).countP (fun i => decide (i < d)) = d := by
  interval_cases d <;> rfl

/-! ## The claims on the blink controller -/

/-- C6. Threshold: in an iteration of the outer loop in which the generator
(index in range) yields the byte `b`, with 8-bit `dim_level` and enough fuel
for the fade loop, the iteration completes and it enters the fade sequence if
and only if `b > 250`; so it is entered exactly for `b` among `251, ..., 255`,
and not for `b = 250`. -/
theorem C6_threshold (m : MainState) (b fuel : Nat) (hi : m.random.index < 4)
    (hb : m.random.state ⟨m.random.index, hi⟩ = b) (hb8 : b < 256)
    (hd : m.dim_level < 256) (hfuel : 2905 ≤ fuel) :
    ∃ r m', outerBody fuel m = some (r, m') ∧ (r.isSome = true ↔ 250 < b) ∧
      (r.isSome = true ↔ b ∈ [251, 252, 253, 254, 255]) ∧ (b = 250 → r = none) := by
  have hgen := LFSR_Generate_of_lt m.random hi
  have hmem : b ∈ [251, 252, 253, 254, 255] ↔ 250 < b := by
    simp only [List.mem_cons, List.mem_singleton, List.not_mem_nil, or_false]
    omega
  by_cases hgt : 250 < b
  · obtain ⟨n, t, ht, _⟩ := fadeLoop_from_entry m.dim_level m.GPIO fuel hd hfuel
    have hout : ∃ m', outerBody fuel m = some (some n, m') := by
      simp only [outerBody, hgen, hb, THRESHOLD, Option.bind_eq_bind, Option.some_bind]
      rw [if_pos hgt, ht]
      exact ⟨_, rfl⟩
    obtain ⟨m', hm'⟩ := hout
    exact ⟨some n, m', hm', by simp [hgt], by simp [hmem, hgt], by omega⟩
  · have hout : ∃ m', outerBody fuel m = some (none, m') := by
      simp only [outerBody, hgen, hb, THRESHOLD, Option.bind_eq_bind, Option.some_bind]
      rw [if_neg hgt]
      exact ⟨_, rfl⟩
    obtain ⟨m', hm'⟩ := hout
    exact ⟨none, m', hm', by simp [hgt], by simp [hmem, hgt], fun _ => rfl⟩

/-- Witness of C6: with `251` at `state[0]` the outer iteration enters the fade
sequence. -/
theorem C6_threshold_witness :
    ∃ r m', outerBody 2905 ⟨⟨![251, 0, 0, 0], 0⟩, 10, 0x14⟩ = some (r, m') ∧
      r.isSome = true := by
  have h := C6_threshold ⟨⟨![251, 0, 0, 0], 0⟩, 10, 0x14⟩ 251 2905 (by decide) (by decide)
    (by decide) (by decide) (by decide)
  obtain ⟨r, m', h1, h2, _⟩ := h
  exact ⟨r, m', h1, h2.2 (by decide)⟩

/-- C7. Termination: for every 8-bit entry value of `dim_level` and every entry
value of the port, the fade loop entered with `counter = 0` and `goingUp = 0`
leaves after at most `2905` iterations (given at least that much fuel), and at
the exit both eye pins are high and `dim_level = 10`. -/
theorem C7_fade_terminates (d p fuel : Nat) (hd : d < 256) (hfuel : 2905 ≤ fuel) :
    ∃ n t, fadeLoop fuel ⟨0, d, 0, p⟩ = some (n, t) ∧ n ≤ 2905 ∧ eyesHigh t.GPIO ∧
      t.dim_level = 10 :=
  fadeLoop_from_entry d p fuel hd hfuel

/-- Witness of C7 at the slowest entry, `dim_level = 0` with the port all clear. -/
theorem C7_fade_terminates_witness :
    ∃ n t, fadeLoop 2905 ⟨0, 0, 0, 0⟩ = some (n, t) ∧ n ≤ 2905 ∧ eyesHigh t.GPIO ∧
      t.dim_level = 10 :=
  C7_fade_terminates 0 0 2905 (by decide) (by decide)

/-- C8. Fade symmetry: entered with `dim_level = 10`, `goingUp = 0`,
`counter = 0` (any port value), the values of `dim_level` over the iterations,
consecutive repeats collapsed, are `10, 9, ..., 1, 0, 1, ..., 9, 10`; from one
iteration to the next `dim_level` is unchanged or moves by exactly `1`; the loop
leaves at its iteration `445`, the first at which `goingUp = 1` and
`dim_level = 10` hold together: at the entry and after each of the `444`
iterations before, they do not. -/
theorem C8_fade_symmetry (p : Nat) :
    collapse ((fadeTrace 445 ⟨0, 10, 0, p⟩).map FadeState.dim_level) =
        [10, 9, 8, 7, 6, 5, 4, 3, 2, 1, 0, 1, 2, 3, 4, 5, 6, 7, 8, 9, 10] ∧
      stepsByOne ((fadeTrace 445 ⟨0, 10, 0, p⟩).map FadeState.dim_level) = true ∧
      (fadeTrace 445 ⟨0, 10, 0, p⟩).length = 445 + 1 ∧
      (∀ s ∈ (fadeTrace 445 ⟨0, 10, 0, p⟩).dropLast, ¬ (s.goingUp = 1 ∧ s.dim_level = 10)) ∧
      ∃ t, fadeLoop 445 ⟨0, 10, 0, p⟩ = some (445, t) ∧
        (fadeTrace 445 ⟨0, 10, 0, p⟩).getLast? = some t ∧
        t.goingUp = 1 ∧ t.dim_level = 10 := by
  have hinv : fadeInv ⟨0, 10, 0, p⟩ := Or.inl ⟨rfl, Nat.zero_le _, (by decide : 10 < 256)⟩
  obtain ⟨t, ht, htd, htg, _⟩ := fadeLoop_exits 445 ⟨0, 10, 0, p⟩ hinv rfl 445 (le_refl _)
  obtain ⟨hlast, hlen⟩ := fadeTrace_of_fadeLoop 445 _ _ _ ht
  have hX := fadeTrace_ctrl 445 ⟨0, 10, 0, p⟩ ⟨0, 10, 0, 0⟩ rfl
  have hc : collapse (((fadeTrace 445 ⟨0, 10, 0, 0⟩).map FadeState.ctrl).map fun c => c.2.1) =
      [10, 9, 8, 7, 6, 5, 4, 3, 2, 1, 0, 1, 2, 3, 4, 5, 6, 7, 8, 9, 10] := by decide!
  have hch : stepsByOne
      (((fadeTrace 445 ⟨0, 10, 0, 0⟩).map FadeState.ctrl).map fun c => c.2.1) = true := by
    decide!
  have hno : ∀ c ∈ ((fadeTrace 445 ⟨0, 10, 0, 0⟩).map FadeState.ctrl).dropLast,
      ¬ (c.2.2 = 1 ∧ c.2.1 = 10) := by decide!
  generalize fadeTrace 445 ⟨0, 10, 0, p⟩ = tr at hX hlast hlen ⊢
  have hdim : tr.map FadeState.dim_level = (tr.map FadeState.ctrl).map fun c => c.2.1 := by
    rw [List.map_map]
    rfl
  rw [hdim, hX]
  refine ⟨hc, hch, hlen, ?_, t, ht, hlast, htg, htd⟩
  intro s hs
  have hmem : s.ctrl ∈ (tr.map FadeState.ctrl).dropLast := by
    rw [← List.map_dropLast]
    exact List.mem_map_of_mem _ hs
  rw [hX] at hmem
  exact hno _ hmem

/-- C9, as stated, fails: entered with `dim_level = 10`, `goingUp = 0`,
`counter = 0` (eyes high), the loop has not left after `201` sub-steps; it
leaves after `445`. -/
theorem C9_substep_count_counterexample :
    (fadeLoop 201 ⟨0, 10, 0, 0x14⟩).isNone = true ∧
      (fadeLoop 445 ⟨0, 10, 0, 0x14⟩).map Prod.fst = some 445 := by
  decide!

/-- C9, amended. Entered with `dim_level = 10`, `goingUp = 0`, `counter = 0`,
the loop runs `10 x 10` descending sub-steps, which end with `counter = 11`,
`dim_level = 0`, `goingUp = 1`; then `245` sub-steps in which `counter` runs
from `11` through `255` and wraps to `0`; then `10 x 10` ascending sub-steps:
`445` sub-steps in all before it leaves. -/
theorem C9_substep_count (p fuel : Nat) (hfuel : 445 ≤ fuel) :
    (∃ t, fadeLoop fuel ⟨0, 10, 0, p⟩ = some (445, t)) ∧
      (fadeSteps 100 ⟨0, 10, 0, p⟩).ctrl = (11, 0, 1) ∧
      (fadeSteps (100 + 245) ⟨0, 10, 0, p⟩).ctrl = (0, 0, 1) ∧
      (fadeSteps (100 + 245 + 100) ⟨0, 10, 0, p⟩).ctrl = (0, 10, 1) ∧
      100 + 245 + 100 = 445 := by
  have hinv : fadeInv ⟨0, 10, 0, p⟩ := Or.inl ⟨rfl, Nat.zero_le _, (by decide : 10 < 256)⟩
  obtain ⟨t, ht, _⟩ := fadeLoop_exits 445 ⟨0, 10, 0, p⟩ hinv rfl fuel hfuel
  have h1 : (fadeSteps 100 ⟨0, 10, 0, 0⟩).ctrl = (11, 0, 1) := by decide!
  have h2 : (fadeSteps (100 + 245) ⟨0, 10, 0, 0⟩).ctrl = (0, 0, 1) := by decide!
  have h3 : (fadeSteps (100 + 245 + 100) ⟨0, 10, 0, 0⟩).ctrl = (0, 10, 1) := by decide!
  have e1 := fadeSteps_ctrl 100 ⟨0, 10, 0, p⟩ ⟨0, 10, 0, 0⟩ rfl
  have e2 := fadeSteps_ctrl (100 + 245) ⟨0, 10, 0, p⟩ ⟨0, 10, 0, 0⟩ rfl
  have e3 := fadeSteps_ctrl (100 + 245 + 100) ⟨0, 10, 0, p⟩ ⟨0, 10, 0, 0⟩ rfl
  exact ⟨⟨t, ht⟩, e1.trans h1, e2.trans h2, e3.trans h3, rfl⟩

/-- Witness of C9 (amended) with the eyes high at entry and `445` iterations allowed. -/
theorem C9_substep_count_witness :
    ∃ t, fadeLoop 445 ⟨0, 10, 0, 0x14⟩ = some (445, t) :=
  (C9_substep_count 0x14 445 (by decide)).1

/-- C10. Software PWM duty cycle: in a cycle started with `counter = 0` and
`dim_level = d ≤ 10` (any entry value of the port, any `goingUp`, the loop not
being at its exit condition), the sub-steps before the one at `counter = c ≤ 9`
stay in the loop, that sub-step runs with `counter = c` and `dim_level = d`,
and the port after its store is high if and only if `c < d`; the port is high
after exactly `d` of the ten stores; no store drives it high when `d = 0`, and
none drives it low when `d = 10`. -/
theorem C10_pwm_duty (d g p c : Nat) (hd : d ≤ 10) (hc : c ≤ 9)
    (hrun : ¬ (g = 1 ∧ d = 10)) :
    (∀ i < c, (fadeBody (fadeSteps i ⟨0, d, g, p⟩)).2 = false) ∧
      (fadeSteps c ⟨0, d, g, p⟩).counter = c ∧
      (fadeSteps c ⟨0, d, g, p⟩).dim_level = d ∧
      (eyesHigh ( FadeState.GPIO (fadeWrite (fadeSteps c ⟨0, d, g, p⟩))) ↔ c < d) ∧
      (List.range 10).countP
        (fun i => decide (eyesHigh ( FadeState.GPIO (fadeWrite (fadeSteps i ⟨0, d, g, p⟩))))) = d ∧
      (d = 0 → eyesWrite (fadeSteps c ⟨0, d, g, p⟩).counter
        (fadeSteps c ⟨0, d, g, p⟩).dim_level ≠ some true) ∧
      (d = 10 → eyesWrite (fadeSteps c ⟨0, d, g, p⟩).counter
        (fadeSteps c ⟨0, d, g, p⟩).dim_level ≠ some false) := by
  have hiff : ∀ i, i ≤ 9 →
      (eyesHigh ( FadeState.GPIO (fadeWrite (fadeSteps i ⟨0, d, g, p⟩))) ↔ i < d) := by
    intro i hi
    obtain ⟨q, hq, hstat⟩ := cycle_state d g p hrun i hi
    have hw := cycle_write i d q hstat
    rw [hq]
    show eyesHigh (applyWrite (eyesWrite i d) q) ↔ i < d
    constructor
    · intro hhigh
      by_contra hlt
      exact not_high_of_low _ (hw.2 (by omega)) hhigh
    · exact hw.1
  obtain ⟨q, hq, _⟩ := cycle_state d g p hrun c hc
  refine ⟨?_, by rw [hq], by rw [hq], hiff c hc, ?_, ?_, ?_⟩
  · intro i hi
    obtain ⟨qi, hqi, _⟩ := cycle_state d g p hrun i (by omega)
    rw [hqi, fadeBody_in_cycle i d g qi (by omega) hrun]
  · refine Eq.trans ?_ (countP_lt_range d hd)
    apply List.countP_congr
    intro i hi
    have hi9 : i ≤ 9 := by
      have := List.mem_range.mp hi
      omega
    simp only [decide_eq_true_eq]
    exact hiff i hi9
  · intro hd0
    rw [hq]
    show eyesWrite c d ≠ some true
    unfold eyesWrite
    split_ifs <;> simp
    omega
  · intro hd10
    rw [hq]
    show eyesWrite c d ≠ some false
    unfold eyesWrite
    split_ifs <;> simp
    omega

/-- Witness of C10: descending at `dim_level = 3` from a clear port, the store
of the sub-step at `counter = 2` leaves the eyes high. -/
theorem C10_pwm_duty_witness :
    eyesHigh ( FadeState.GPIO (fadeWrite (fadeSteps 2 ⟨0, 3, 0, 0⟩))) ↔ 2 < 3 :=
  (C10_pwm_duty 3 0 0 2 (by decide) (by decide) (by decide)).2.2.2.1

/-! ## Further lemmas on the generator -/

theorem or_eq_xor_of_disjoint (a n : Nat)
    (h : ∀ i, a.testBit i = true → n.testBit i = false) : a ||| n = a ^^^ n := by
  apply Nat.eq_of_testBit_eq
  intro i
  have hi := h i
  rw [Nat.testBit_or, Nat.testBit_xor]
  cases ha : a.testBit i <;> cases hn : n.testBit i <;> simp_all

theorem shift_or_eq_xor (cur nxt k : Nat) (hk : k ≤ 8) (hn : nxt < 256) :
    u8 (cur <<< k) ||| (nxt >>> (8 - k)) = u8 (cur <<< k) ^^^ (nxt >>> (8 - k)) := by
  apply or_eq_xor_of_disjoint
  intro i hi
  have hik : k ≤ i := by
    unfold u8 at hi
    rw [show (256 : Nat) = 2 ^ 8 from rfl, Nat.testBit_mod_two_pow, Nat.testBit_shiftLeft] at hi
    simp only [Bool.and_eq_true, decide_eq_true_eq] at hi
    exact hi.2.1
  rw [Nat.testBit_shiftRight]
  apply Nat.testBit_lt_two_pow
  calc nxt < 2 ^ 8 := hn
    _ ≤ 2 ^ (8 - k + i) := Nat.pow_le_pow_right (by decide) (by omega)

/-- The stored byte is the XOR of a function of `cur` and a function of `nxt`. -/
theorem mixByte_split (cur nxt : Nat) (hc : cur < 256) (hn : nxt < 256) :
    mixByte cur nxt = mixCur cur ^^^ mixNxt nxt := by
  rw [mixByte_eq_spec cur nxt hc hn]
  unfold specNewByte specB specC specD mixCur mixNxt
  have hB : u8 (cur <<< 2) ||| (nxt >>> 6) = u8 (cur <<< 2) ^^^ (nxt >>> 6) :=
    shift_or_eq_xor cur nxt 2 (by decide) hn
  have hC : u8 (cur <<< 6) ||| (nxt >>> 2) = u8 (cur <<< 6) ^^^ (nxt >>> 2) :=
    shift_or_eq_xor cur nxt 6 (by decide) hn
  have hD : u8 (cur <<< 7) ||| (nxt >>> 1) = u8 (cur <<< 7) ^^^ (nxt >>> 1) :=
    shift_or_eq_xor cur nxt 7 (by decide) hn
  rw [hB, hC, hD]
  ac_rfl

theorem unmixCur_mixCur : ∀ cur < 256, unmixCur (mixCur cur) = cur := by decide!

/-- For a fixed successor byte the stored byte determines the byte it replaces. -/
theorem mixByte_injective (c1 c2 nxt : Nat) (h1 : c1 < 256) (h2 : c2 < 256) (hn : nxt < 256)
    (h : mixByte c1 nxt = mixByte c2 nxt) : c1 = c2 := by
  rw [mixByte_split c1 nxt h1 hn, mixByte_split c2 nxt h2 hn] at h
  have hc : mixCur c1 = mixCur c2 := Nat.xor_left_inj.mp h
  rw [← unmixCur_mixCur c1 h1, ← unmixCur_mixCur c2 h2, hc]

/-- What one call does to each field, read off any result it returns. -/
theorem generate_spec (g g' : lfsr_generator_t) (r : Nat) (hi : g.index < 4)
    (e : LFSR_Generate g = some (r, g')) :
    r = g.state ⟨g.index, hi⟩ ∧ g'.index = (g.index + 1) % 4 ∧
      g'.state ⟨g.index, hi⟩ =
        mixByte (g.state ⟨g.index, hi⟩) (g.state ⟨(g.index + 1) % 4, succ_mod_four_lt _⟩) ∧
      ∀ j : Fin 4, j.val ≠ g.index → g'.state j = g.state j := by
  rw [LFSR_Generate_of_lt g hi] at e
  simp only [Option.some.injEq, Prod.mk.injEq] at e
  obtain ⟨rfl, rfl⟩ := e
  refine ⟨rfl, rfl, by simp only [Function.update_same], ?_⟩
  intro j hj
  have hne : j ≠ ⟨g.index, hi⟩ := fun h => hj (congrArg Fin.val h)
  simp only [Function.update_noteq hne]

theorem LFSR_Init_eq (g0 g1 : lfsr_generator_t) : LFSR_Init g0 = LFSR_Init g1 := by
  have hs : (LFSR_Init g0).state = (LFSR_Init g1).state := by
    funext i
    fin_cases i <;> simp [LFSR_Init, Function.update]
  have hidx : (LFSR_Init g0).index = (LFSR_Init g1).index := rfl
  cases ha : LFSR_Init g0
  cases hb : LFSR_Init g1
  rw [ha, hb] at hs hidx
  simp only at hs hidx
  rw [hs, hidx]

/-! ## Further lemmas on the fade loop -/

theorem chain_of_chainB {α : Type} (R : α → α → Prop) [DecidableRel R] :
    ∀ l : List α, chainB (fun a b => decide (R a b)) l = true → List.Chain' R l := by
  intro l
  induction l with
  | nil => intro _; exact List.chain'_nil
  | cons a l ih =>
    cases l with
    | nil => intro _; exact List.chain'_singleton a
    | cons b l =>
      intro h
      simp only [chainB, Bool.and_eq_true, decide_eq_true_eq] at h
      exact List.chain'_cons.mpr ⟨h.1, ih h.2⟩

theorem applyWrite_obs (w : Option Bool) (a b : Nat) (h : a &&& 0x14 = b &&& 0x14) :
    applyWrite w a &&& 0x14 = applyWrite w b &&& 0x14 := by
  match w with
  | none => exact h
  | some true => exact (or_mask_high a).trans (or_mask_high b).symm
  | some false => exact (and_mask_low a).trans (and_mask_low b).symm

theorem fadeWrite_obs (s t : FadeState) (h : s.obs = t.obs) :
    (fadeWrite s).obs = (fadeWrite t).obs := by
  obtain ⟨c, d, g, p⟩ := s
  obtain ⟨c', d', g', p'⟩ := t
  simp only [FadeState.obs, Prod.mk.injEq] at h
  obtain ⟨rfl, rfl, rfl, hp⟩ := h
  simp only [fadeWrite, FadeState.obs, Prod.mk.injEq, true_and]
  exact applyWrite_obs _ _ _ hp

theorem fadeUpdate_obs (s t : FadeState) (h : s.obs = t.obs) :
    (fadeUpdate s).obs = (fadeUpdate t).obs := by
  obtain ⟨c, d, g, p⟩ := s
  obtain ⟨c', d', g', p'⟩ := t
  simp only [FadeState.obs, Prod.mk.injEq] at h
  obtain ⟨rfl, rfl, rfl, hp⟩ := h
  simp only [fadeUpdate]
  split_ifs <;> simp [FadeState.obs, hp]

theorem fadeExit_obs (s t : FadeState) (h : s.obs = t.obs) :
    (fadeExit s).1.obs = (fadeExit t).1.obs ∧ (fadeExit s).2 = (fadeExit t).2 := by
  obtain ⟨c, d, g, p⟩ := s
  obtain ⟨c', d', g', p'⟩ := t
  simp only [FadeState.obs, Prod.mk.injEq] at h
  obtain ⟨rfl, rfl, rfl, hp⟩ := h
  simp only [fadeExit]
  split_ifs
  · exact ⟨by simpa [FadeState.obs] using applyWrite_obs (some true) _ _ hp, rfl⟩
  · exact ⟨by simp [FadeState.obs, hp], rfl⟩

/-- Only the two eye bits of the port register influence the loop variables,
the eye bits afterwards, and the exit of an iteration. -/
theorem fadeBody_obs (s t : FadeState) (h : s.obs = t.obs) :
    (fadeBody s).1.obs = (fadeBody t).1.obs ∧ (fadeBody s).2 = (fadeBody t).2 :=
  fadeExit_obs _ _ (fadeUpdate_obs _ _ (fadeWrite_obs _ _ h))

theorem fadeTrace_obs (fuel : Nat) :
    ∀ s t : FadeState, s.obs = t.obs →
      (fadeTrace fuel s).map FadeState.obs = (fadeTrace fuel t).map FadeState.obs := by
  induction fuel with
  | zero => intro s t h; simp [fadeTrace, h]
  | succ k ih =>
    intro s t h
    obtain ⟨hc, hf⟩ := fadeBody_obs s t h
    have hs : fadeBody s = ((fadeBody s).1, (fadeBody s).2) := rfl
    have ht : fadeBody t = ((fadeBody t).1, (fadeBody t).2) := rfl
    simp only [fadeTrace]
    rw [hs, ht, ← hf]
    cases (fadeBody s).2 with
    | true => simp [h, hc]
    | false => simp [h, ih _ _ hc]

/-- The eye bits after the store of an iteration, from the reduced variables. -/
theorem fadeWrite_eyes (s : FadeState) :
    FadeState.GPIO (fadeWrite s) &&& 0x14 =
      applyWrite (eyesWrite s.obs.1 s.obs.2.1) s.obs.2.2.2 &&& 0x14 := by
  apply applyWrite_obs
  show s.GPIO &&& 0x14 = (s.GPIO &&& 0x14) &&& 0x14
  rw [Nat.and_assoc, Nat.and_self]

/-- After the first sub-step of a fade entered at `dim_level = 10` the eye
bits no longer depend on the entry value of the port. -/
theorem fadeTrace_obs_tail (n p : Nat) :
    (fadeTrace (n + 1) ⟨0, 10, 0, p⟩).map FadeState.obs =
      (0, 10, 0, p &&& 0x14) :: (fadeTrace n ⟨1, 10, 0, 0x14⟩).map FadeState.obs := by
  have hb : fadeBody ⟨0, 10, 0, p⟩ = (⟨1, 10, 0, applyWrite (eyesWrite 0 10) p⟩, false) :=
    fadeBody_in_cycle 0 10 0 p (by decide) (by decide)
  have hobs : (⟨1, 10, 0, applyWrite (eyesWrite 0 10) p⟩ : FadeState).obs =
      (⟨1, 10, 0, 0x14⟩ : FadeState).obs := by
    simp only [FadeState.obs, Prod.mk.injEq, true_and]
    exact or_mask_high p
  simp only [fadeTrace, hb, List.map_cons]
  rw [fadeTrace_obs n _ _ hobs]
  rfl

/-- C11, as stated, fails: for `Timer_Wait(2)`, the call of the fade loop, the
preload is `0xFEFF`, which leaves `257` ticks before the rollover, not
`128 * 2 = 256`. -/
theorem C11_wait_ticks_counterexample :
    (Timer_Wait_preload 2 ⟨0, 0, 0x30, 0⟩).value = 0xFEFF ∧
      ticksToRollover (Timer_Wait_preload 2 ⟨0, 0, 0x30, 0⟩).value ≠ 128 * 2 := by
  decide

/-- C11, amended. For every `pMilliseconds` in `0..255` the preload that
`Timer_Wait` writes is `TMR1H = 0xFF - pMilliseconds / 2`,
`TMR1L = 0xFF - (pMilliseconds % 2) * 128`, a 16-bit value `V` that leaves
`128 * pMilliseconds + 1` ticks before the timer rolls over from `0xFFFF` to `0`. -/
theorem C11_wait_ticks (pMilliseconds : Nat) (hp : pMilliseconds < 256) (r : TimerRegs) :
    (Timer_Wait_preload pMilliseconds r).TMR1H = 0xFF - pMilliseconds / 2 ∧
      (Timer_Wait_preload pMilliseconds r).TMR1L = 0xFF - (pMilliseconds % 2) * 128 ∧
      (Timer_Wait_preload pMilliseconds r).value < 65536 ∧
      ticksToRollover (Timer_Wait_preload pMilliseconds r).value = 128 * pMilliseconds + 1 := by
  simp only [Timer_Wait_preload, TimerRegs.value, ticksToRollover, u8, Nat.shiftLeft_eq]
  omega

/-- Witness of C11 (amended) at `Timer_Wait(100)`, the call of the outer loop. -/
theorem C11_wait_ticks_witness :
    ticksToRollover (Timer_Wait_preload 100 ⟨0, 0, 0x30, 0⟩).value = 128 * 100 + 1 :=
  (C11_wait_ticks 100 (by decide) ⟨0, 0, 0x30, 0⟩).2.2.2

/-- C13. Extended off phase, in a fade entered with `dim_level = 10`,
`goingUp = 0`, `counter = 0` (any port value).  `dim_level` is non-zero up to
sub-step `100`, which leaves `counter = 11`, `dim_level = 0`, `goingUp = 1`;
over the next `245` sub-steps `counter` runs `11, 12, ..., 255` without being
reset and then wraps to `0`; only then a cycle with `counter = 0, ..., 9` runs,
after which `dim_level` is `1`.  In each of the `255` sub-steps that start with
`dim_level = 0` the eyes are low before and after the store.  These sub-steps
are consecutive and are all those with `dim_level = 0`, and every other value
of `dim_level` holds at the start of at most `20` sub-steps, fewer than `255`. -/
theorem C13_extended_off (p : Nat) :
    (∀ s ∈ (fadeTrace 445 ⟨0, 10, 0, p⟩).take 100, s.dim_level ≠ 0) ∧
      (((fadeTrace 445 ⟨0, 10, 0, p⟩).drop 100).take 256).map FadeState.ctrl =
        (List.range 245).map (fun j => (11 + j, 0, 1)) ++
          (List.range 10).map (fun j => (j, 0, 1)) ++ [(0, 1, 1)] ∧
      (∀ s ∈ ((fadeTrace 445 ⟨0, 10, 0, p⟩).drop 100).take 255,
        s.dim_level = 0 ∧ eyesLow s.GPIO ∧ eyesLow ( FadeState.GPIO (fadeWrite s))) ∧
      (∀ s ∈ (fadeTrace 445 ⟨0, 10, 0, p⟩).drop 355, s.dim_level ≠ 0) ∧
      ((fadeTrace 445 ⟨0, 10, 0, p⟩).dropLast.map FadeState.dim_level).count 0 = 255 ∧
      ∀ d, d ≠ 0 → ((fadeTrace 445 ⟨0, 10, 0, p⟩).dropLast.map FadeState.dim_level).count d ≤ 20 ∧
        ((fadeTrace 445 ⟨0, 10, 0, p⟩).dropLast.map FadeState.dim_level).count d <
          ((fadeTrace 445 ⟨0, 10, 0, p⟩).dropLast.map FadeState.dim_level).count 0 := by
  have hX : (fadeTrace 445 ⟨0, 10, 0, p⟩).map FadeState.ctrl = _ :=
    fadeTrace_ctrl 445 ⟨0, 10, 0, p⟩ ⟨0, 10, 0, 0⟩ rfl
  have hO : (fadeTrace 445 ⟨0, 10, 0, p⟩).map FadeState.obs = _ := fadeTrace_obs_tail 444 p
  generalize fadeTrace 445 ⟨0, 10, 0, p⟩ = tr at hX hO ⊢
  have h1 : ∀ c ∈ ((fadeTrace 445 ⟨0, 10, 0, 0⟩).map FadeState.ctrl).take 100, c.2.1 ≠ 0 := by
    decide!
  have h2 : (((fadeTrace 445 ⟨0, 10, 0, 0⟩).map FadeState.ctrl).drop 100).take 256 =
      (List.range 245).map (fun j => (11 + j, 0, 1)) ++
        (List.range 10).map (fun j => (j, 0, 1)) ++ [(0, 1, 1)] := by decide!
  have h5 : ∀ o ∈ (((fadeTrace 444 ⟨1, 10, 0, 0x14⟩).map FadeState.obs).drop 99).take 255,
      o.2.1 = 0 ∧ o.2.2.2 = 0 ∧ applyWrite (eyesWrite o.1 o.2.1) o.2.2.2 &&& 0x14 = 0 := by
    decide!
  have h6 : ∀ c ∈ ((fadeTrace 445 ⟨0, 10, 0, 0⟩).map FadeState.ctrl).drop 355, c.2.1 ≠ 0 := by
    decide!
  have h7 : ((((fadeTrace 445 ⟨0, 10, 0, 0⟩).map FadeState.ctrl).dropLast).map
      (fun c => c.2.1)).count 0 = 255 ∧
      (∀ x ∈ (((fadeTrace 445 ⟨0, 10, 0, 0⟩).map FadeState.ctrl).dropLast).map
        (fun c => c.2.1), x ≤ 10) ∧
      ∀ d ≤ 10, d ≠ 0 → ((((fadeTrace 445 ⟨0, 10, 0, 0⟩).map FadeState.ctrl).dropLast).map
        (fun c => c.2.1)).count d ≤ 20 := by decide!
  rw [← hX] at h1 h2 h6 h7
  have hdims : tr.dropLast.map FadeState.dim_level =
      ((tr.map FadeState.ctrl).dropLast).map (fun c => c.2.1) := by
    rw [← List.map_dropLast, List.map_map]
    rfl
  refine ⟨?_, ?_, ?_, ?_, ?_, ?_⟩
  · intro s hs
    exact h1 s.ctrl (by rw [← List.map_take]; exact List.mem_map_of_mem _ hs)
  · rw [← h2, ← List.map_drop, ← List.map_take]
  · intro s hs
    have hmem : s.obs ∈ ((tr.map FadeState.obs).drop 100).take 255 := by
      rw [← List.map_drop, ← List.map_take]; exact List.mem_map_of_mem _ hs
    rw [hO, List.drop_succ_cons] at hmem
    have ho := h5 s.obs hmem
    exact ⟨ho.1, ho.2.1, (fadeWrite_eyes s).trans ho.2.2⟩
  · intro s hs
    exact h6 s.ctrl (by rw [← List.map_drop]; exact List.mem_map_of_mem _ hs)
  · rw [hdims]; exact h7.1
  · intro d hd
    rw [hdims]
    have hd20 : (((tr.map FadeState.ctrl).dropLast).map (fun c => c.2.1)).count d ≤ 20 := by
      by_cases hle : d ≤ 10
      · exact h7.2.2 d hle hd
      · have hnot : d ∉ ((tr.map FadeState.ctrl).dropLast).map (fun c => c.2.1) :=
          fun hmem => hle (h7.2.1 d hmem)
        rw [List.count_eq_zero_of_not_mem hnot]
        exact Nat.zero_le _
    have h0 := h7.1
    exact ⟨hd20, by omega⟩

/-- C14. In a fade entered with `dim_level = 10`, `goingUp = 0`, `counter = 0`,
`dim_level` is within `0..10` at the top of every iteration and at the exit
(so it neither wraps below `0` nor exceeds `10`), and an iteration takes it
from a non-zero value to `0` only when it starts with `goingUp = 0` and ends
with `counter = 11` and `goingUp = 1`. -/
theorem C14_dim_level_range (p : Nat) :
    (∀ s ∈ fadeTrace 445 ⟨0, 10, 0, p⟩, s.dim_level ≤ 10) ∧
      List.Chain'
        (fun s s' : FadeState => s.dim_level ≠ 0 → s'.dim_level = 0 →
          s.goingUp = 0 ∧ s'.counter = 11 ∧ s'.goingUp = 1)
        (fadeTrace 445 ⟨0, 10, 0, p⟩) := by
  have hX := fadeTrace_ctrl 445 ⟨0, 10, 0, p⟩ ⟨0, 10, 0, 0⟩ rfl
  have hall : ∀ c ∈ (fadeTrace 445 ⟨0, 10, 0, 0⟩).map FadeState.ctrl, c.2.1 ≤ 10 := by
    decide!
  have hchB : chainB
      (fun c c' : Nat × Nat × Nat =>
        decide (c.2.1 ≠ 0 → c'.2.1 = 0 → c.2.2 = 0 ∧ c'.1 = 11 ∧ c'.2.2 = 1))
      ((fadeTrace 445 ⟨0, 10, 0, 0⟩).map FadeState.ctrl) = true := by decide!
  generalize fadeTrace 445 ⟨0, 10, 0, p⟩ = tr at hX ⊢
  refine ⟨fun s hs => ?_, ?_⟩
  · have hmem : s.ctrl ∈ tr.map FadeState.ctrl := List.mem_map_of_mem _ hs
    rw [hX] at hmem
    exact hall _ hmem
  · have hch := chain_of_chainB
      (fun c c' : Nat × Nat × Nat => c.2.1 ≠ 0 → c'.2.1 = 0 → c.2.2 = 0 ∧ c'.1 = 11 ∧ c'.2.2 = 1)
      _ hchB
    rw [← hX, List.chain'_map] at hch
    exact hch

/-! ## Lemmas on the outer loop -/

/-- As long as the calls return, each of them contributes one byte. -/
theorem outputs_length (n : Nat) :
    ∀ g g' : lfsr_generator_t, generateN n g = some g' → (outputs n g).length = n := by
  induction n with
  | zero => intro g g' _; rfl
  | succ k ih =>
    intro g g' hg
    cases hgen : LFSR_Generate g with
    | none => simp [generateN, hgen] at hg
    | some r =>
      simp only [generateN, hgen, Option.some_bind] at hg
      simp only [outputs, hgen, List.length_cons, ih _ _ hg]

theorem mainInv_init (random : lfsr_generator_t) (port : Nat) :
    mainInv (mainInit random port) :=
  ⟨rfl, or_mask_high port, (genInv_init random).1⟩

/-- One iteration of the outer loop from a state of `mainInv`: it completes,
keeps `mainInv`, advances the generator by one call, and runs the fade
sequence, from `dim_level = 10`, `counter = 0`, `goingUp = 0` and for `445`
sub-steps, exactly when the byte drawn exceeds `THRESHOLD`. -/
theorem outerBody_step (fuel : Nat) (hfuel : 445 ≤ fuel) (m : MainState) (hm : mainInv m) :
    ∃ b g' m', LFSR_Generate m.random = some (b, g') ∧
      outerBody fuel m = some (if THRESHOLD < b then some 445 else none, m') ∧
      m'.random = g' ∧ mainInv m' ∧
      (THRESHOLD < b → ∃ t, fadeLoop fuel ⟨0, 10, 0, m.GPIO⟩ = some (445, t) ∧
        m'.dim_level = t.dim_level ∧ m'.GPIO = t.GPIO) := by
  obtain ⟨hd, hhigh, hi⟩ := hm
  have hgen := LFSR_Generate_of_lt m.random hi
  have hi' : (m.random.index + 1) % 4 < 4 := succ_mod_four_lt _
  by_cases hgt : THRESHOLD < m.random.state ⟨m.random.index, hi⟩
  · have hinv : fadeInv ⟨0, 10, 0, m.GPIO⟩ := Or.inl ⟨rfl, Nat.zero_le _, (by decide : 10 < 256)⟩
    obtain ⟨t, ht, htd, _, hth⟩ := fadeLoop_exits 445 ⟨0, 10, 0, m.GPIO⟩ hinv rfl fuel hfuel
    refine ⟨_, _, ⟨_, t.dim_level, t.GPIO⟩, hgen, ?_, rfl, ⟨htd, hth, hi'⟩,
      fun _ => ⟨t, ht, rfl, rfl⟩⟩
    simp only [outerBody, hgen, Option.bind_eq_bind, Option.some_bind, hd]
    rw [if_pos hgt, if_pos hgt, ht]
    rfl
  · refine ⟨_, _, ⟨_, m.dim_level, m.GPIO⟩, hgen, ?_, rfl, ⟨hd, hhigh, hi'⟩,
      fun h => absurd h hgt⟩
    simp only [outerBody, hgen, Option.bind_eq_bind, Option.some_bind]
    rw [if_neg hgt, if_neg hgt]

/-- Any number of iterations of the outer loop from a state of `mainInv`:
they complete, `mainInv` holds afterwards, and the iterations that run the fade
sequence are those whose byte exceeds `THRESHOLD`. -/
theorem outerRun_spec (fuel : Nat) (hfuel : 445 ≤ fuel) (n : Nat) :
    ∀ m : MainState, mainInv m →
      ∃ m', outerRun fuel n m =
          some ((outputs n m.random).map
            (fun b => if THRESHOLD < b then some 445 else none), m') ∧
        mainInv m' := by
  induction n with
  | zero => intro m hm; exact ⟨m, rfl, hm⟩
  | succ k ih =>
    intro m hm
    obtain ⟨b, g', m1, hgen, hbody, hrand, hm1, _⟩ := outerBody_step fuel hfuel m hm
    obtain ⟨m2, hrun, hm2⟩ := ih m1 hm1
    refine ⟨m2, ?_, hm2⟩
    simp only [outerRun, hbody, Option.some_bind, hrun, Option.map_some', outputs, hgen,
      List.map_cons, hrand]

/-! ## The claims on the outer loop and the remaining claims on the generator -/

/-- C15. Outer-loop invariant: after `mainInit` and any number `n` of
iterations of the outer loop (the fade loop being given at least `445`
iterations), the iterations have completed, `dim_level = 10` and the eyes are
high, and each iteration either skipped the fade or ran it for `445` sub-steps.
From any state with `dim_level = 10`, eyes high and generator index in range,
whatever the generator bytes, an iteration completes, keeps these facts, and
if it enters the fade it enters it with `dim_level = 10`, `counter = 0`,
`goingUp = 0`. -/
theorem C15_outer_invariant (fuel n : Nat) (hfuel : 445 ≤ fuel) (random : lfsr_generator_t)
    (port : Nat) (m : MainState) (hm : mainInv m) :
    (∃ rs mn, outerRun fuel n (mainInit random port) = some (rs, mn) ∧ rs.length = n ∧
        mn.dim_level = 10 ∧ eyesHigh mn.GPIO ∧ ∀ r ∈ rs, r = none ∨ r = some 445) ∧
      ∃ r m', outerBody fuel m = some (r, m') ∧ m'.dim_level = 10 ∧ eyesHigh m'.GPIO ∧
        m'.random.index < 4 ∧
        ∀ k, r = some k →
          ∃ t, fadeLoop fuel ⟨0, 10, 0, m.GPIO⟩ = some (k, t) ∧
            m'.dim_level = t.dim_level ∧ m'.GPIO = t.GPIO := by
  constructor
  · obtain ⟨mn, hrun, hd, hh, _⟩ :=
      outerRun_spec fuel hfuel n (mainInit random port) (mainInv_init random port)
    have hlen : (outputs n (mainInit random port).random).length = n := by
      obtain ⟨g, hg, _⟩ := genInv_generateN n (LFSR_Init random) (genInv_init random)
      exact outputs_length n _ g hg
    refine ⟨_, mn, hrun, by rw [List.length_map, hlen], hd, hh, ?_⟩
    intro r hr
    obtain ⟨b, _, rfl⟩ := List.mem_map.mp hr
    by_cases hb : THRESHOLD < b
    · right; rw [if_pos hb]
    · left; rw [if_neg hb]
  · obtain ⟨b, g', m', _, hbody, _, ⟨hd, hh, hi⟩, hfade⟩ := outerBody_step fuel hfuel m hm
    refine ⟨_, m', hbody, hd, hh, hi, ?_⟩
    intro k hk
    by_cases hb : THRESHOLD < b
    · rw [if_pos hb] at hk
      cases hk
      exact hfade hb
    · rw [if_neg hb] at hk
      cases hk

/-- Witness of C15: thirty iterations after start-up from a clear port, and one
iteration from the start-up state itself. -/
theorem C15_outer_invariant_witness :
    ∃ rs mn, outerRun 445 30 (mainInit ⟨fun _ => 0, 0⟩ 0) = some (rs, mn) ∧ rs.length = 30 ∧
      mn.dim_level = 10 ∧ eyesHigh mn.GPIO ∧ ∀ r ∈ rs, r = none ∨ r = some 445 :=
  (C15_outer_invariant 445 30 (le_refl _) ⟨fun _ => 0, 0⟩ 0 (mainInit ⟨fun _ => 0, 0⟩ 0)
    (mainInv_init _ _)).1

/-- C16. Frame of `LFSR_Generate`: on a generator with index `i` in `{0,1,2,3}`
the call returns, and every byte `state[j]` with `j ≠ i` is the same after the
call as before (the structure has no field besides `state` and `index`). -/
theorem C16_generate_frame (g : lfsr_generator_t) (hi : g.index < 4) (j : Fin 4)
    (hj : j.val ≠ g.index) :
    ∃ r g', LFSR_Generate g = some (r, g') ∧ g'.state j = g.state j := by
  refine ⟨_, _, LFSR_Generate_of_lt g hi, ?_⟩
  exact (generate_spec g _ _ hi (LFSR_Generate_of_lt g hi)).2.2.2 j hj

/-- Witness of C16: with bytes `5, 6, 7, 8` and index `2`, `state[0]` stays `5`. -/
theorem C16_generate_frame_witness :
    ∃ r g', LFSR_Generate ⟨![5, 6, 7, 8], 2⟩ = some (r, g') ∧ g'.state 0 = 5 := by
  have h := C16_generate_frame ⟨![5, 6, 7, 8], 2⟩ (by decide) 0 (by decide)
  exact h

/-- C17. Invertibility of the generator step: two generators with 8-bit bytes
and index in `{0,1,2,3}` that one call maps to the same generator (same four
bytes, same index) are equal; and a call that leaves the four bytes all zero
started from four bytes all zero. -/
theorem C17_generate_injective (g1 g2 g' : lfsr_generator_t) (r1 r2 : Nat)
    (u1 : g1.isU8) (u2 : g2.isU8) (i1 : g1.index < 4) (i2 : g2.index < 4)
    (e1 : LFSR_Generate g1 = some (r1, g')) (e2 : LFSR_Generate g2 = some (r2, g')) :
    g1 = g2 ∧ (g'.allZero → g1.allZero) := by
  obtain ⟨_, hx1, hm1, hf1⟩ := generate_spec g1 g' r1 i1 e1
  obtain ⟨_, hx2, hm2, hf2⟩ := generate_spec g2 g' r2 i2 e2
  have hidx : g1.index = g2.index := by omega
  have hne : ∀ k, k < 4 → (k + 1) % 4 ≠ k := fun k hk => succ_mod_four_ne k hk
  constructor
  · obtain ⟨st1, x1⟩ := g1
    obtain ⟨st2, x2⟩ := g2
    simp only at hidx i1 i2 hm1 hm2 hf1 hf2 u1 u2
    subst hidx
    have hnxt : st1 ⟨(x1 + 1) % 4, succ_mod_four_lt _⟩ = st2 ⟨(x1 + 1) % 4, succ_mod_four_lt _⟩ :=
      (hf1 ⟨(x1 + 1) % 4, succ_mod_four_lt _⟩ (hne x1 i1)).symm.trans
        (hf2 ⟨(x1 + 1) % 4, succ_mod_four_lt _⟩ (hne x1 i1))
    have hcur : st1 ⟨x1, i1⟩ = st2 ⟨x1, i1⟩ := by
      have hmix := hm1.symm.trans hm2
      rw [hnxt] at hmix
      exact mixByte_injective _ _ _ (u1.1 _) (u2.1 _) (u2.1 _) hmix
    have hst : st1 = st2 := by
      funext j
      by_cases hj : j.val = x1
      · have hjeq : j = ⟨x1, i1⟩ := Fin.ext hj
        rw [hjeq]; exact hcur
      · exact (hf1 j hj).symm.trans (hf2 j hj)
    rw [hst]
  · intro hz
    have hnxt : g1.state ⟨(g1.index + 1) % 4, succ_mod_four_lt _⟩ = 0 := by
      rw [← hf1 _ (hne g1.index i1)]; exact hz _
    have hcur : g1.state ⟨g1.index, i1⟩ = 0 := by
      have hzero := hz ⟨g1.index, i1⟩
      rw [hm1, hnxt] at hzero
      exact mixByte_zero_right _ (u1.1 _) hzero
    intro j
    by_cases hj : j.val = g1.index
    · have hjeq : j = ⟨g1.index, i1⟩ := Fin.ext hj
      rw [hjeq]; exact hcur
    · rw [← hf1 j hj]; exact hz j

/-- Witness of C17 at the generator with bytes `5, 6, 7, 8` and index `2`,
whose call returns `7` and stores `mixByte 7 8` in `state[2]`. -/
theorem C17_generate_injective_witness :
    (⟨![5, 6, 7, 8], 2⟩ : lfsr_generator_t) = ⟨![5, 6, 7, 8], 2⟩ ∧
      (lfsr_generator_t.allZero ⟨Function.update ![5, 6, 7, 8] 2 (mixByte 7 8), 3⟩ →
        lfsr_generator_t.allZero ⟨![5, 6, 7, 8], 2⟩) := by
  have e := LFSR_Generate_of_lt ⟨![5, 6, 7, 8], 2⟩ (by decide)
  exact C17_generate_injective ⟨![5, 6, 7, 8], 2⟩ ⟨![5, 6, 7, 8], 2⟩ _ _ _
    ⟨by decide, by decide⟩ ⟨by decide, by decide⟩ (by decide) (by decide) e e

/-- C18. The device does blink.  After `LFSR_Init` the first four bytes that
`LFSR_Generate` returns are the seed bytes `0x21, 0x2C, 0x7F, 0x7F`, the 23rd is
`251 > THRESHOLD`, and it is the first above `THRESHOLD`; so, the fade loop
being given at least `445` iterations, the outer loop skips the fade in its
first four iterations (indeed in its first `22`) and runs it in the 23rd. -/
theorem C18_device_blinks (fuel : Nat) (hfuel : 445 ≤ fuel) (random : lfsr_generator_t)
    (port : Nat) :
    outputs 4 (LFSR_Init random) = [0x21, 0x2C, 0x7F, 0x7F] ∧
      outputs 23 (LFSR_Init random) =
        [0x21, 0x2C, 0x7F, 0x7F, 120, 189, 226, 224, 235, 195, 161, 44, 85, 245, 248, 162,
          133, 160, 99, 203, 43, 8, 251] ∧
      (∃ n b, 1 ≤ n ∧ (outputs n (LFSR_Init random))[n - 1]? = some b ∧ THRESHOLD < b) ∧
      (∃ m4, outerRun fuel 4 (mainInit random port) = some (List.replicate 4 none, m4)) ∧
      ∃ m23, outerRun fuel 23 (mainInit random port) =
        some (List.replicate 22 none ++ [some 445], m23) := by
  have hseed : LFSR_Init random = LFSR_Init ⟨fun _ => 0, 0⟩ := LFSR_Init_eq _ _
  have h4 : outputs 4 (LFSR_Init ⟨fun _ => 0, 0⟩) = [0x21, 0x2C, 0x7F, 0x7F] := by decide!
  have h23 : outputs 23 (LFSR_Init ⟨fun _ => 0, 0⟩) =
      [0x21, 0x2C, 0x7F, 0x7F, 120, 189, 226, 224, 235, 195, 161, 44, 85, 245, 248, 162,
        133, 160, 99, 203, 43, 8, 251] := by decide!
  rw [← hseed] at h4 h23
  obtain ⟨m4, hrun4, _⟩ :=
    outerRun_spec fuel hfuel 4 (mainInit random port) (mainInv_init random port)
  obtain ⟨m23, hrun23, _⟩ :=
    outerRun_spec fuel hfuel 23 (mainInit random port) (mainInv_init random port)
  have hrand : (mainInit random port).random = LFSR_Init random := rfl
  rw [hrand, h4] at hrun4
  rw [hrand, h23] at hrun23
  refine ⟨h4, h23, ⟨23, 251, by decide, by rw [h23]; rfl, by decide⟩, ⟨m4, ?_⟩, ⟨m23, ?_⟩⟩
  · rw [hrun4]; rfl
  · rw [hrun23]; rfl

/-- Witness of C18 at start-up from a clear port with `445` iterations allowed. -/
theorem C18_device_blinks_witness :
    ∃ m23, outerRun 445 23 (mainInit ⟨fun _ => 0, 0⟩ 0) =
      some (List.replicate 22 none ++ [some 445], m23) :=
  (C18_device_blinks 445 (le_refl _) ⟨fun _ => 0, 0⟩ 0).2.2.2.2

end Gengar
